import Mathlib

/-!
Shallow embedding of the `jtd-117/ads_py` library: a doubly linked-list
stack (`src/data_structures/stacks_and_queues/dlls.py`, class `DLLS`) and an
unbalanced binary search tree
(`src/data_structures/trees/binary_search_trees/bst.py`, class `BST`).

Both structures are parameterized by a three-way comparison function whose
codomain is the `CMPValues` enum of the source (`LESS`, `EQUAL`, `GREATER`).

The BST is modelled as an inductive binary tree: a Python `BST.Node` object
is a subtree position; the `parent` back-reference of the source is modelled
where needed (predecessor/successor) by a zipper (`BST.Loc`), i.e. a focused
subtree together with the path of steps back to the root, which is the
standard functional rendering of a pointer tree with parent links.

The DLLS is modelled with an explicit node store: nodes are addressed by
stable indices into `store`, and `next`/`prev`/`head`/`tail` are optional
indices, mirroring the Python object graph (`None` = `none`).
-/

/-- The `CMPValues` enum shared by both source files: the output values
permitted by `cmp_fn`. -/
inductive CMPValues : Type where
  | LESS
  | EQUAL
  | GREATER
deriving DecidableEq

/-- The standard numeric comparator used by the repository's examples:
`-1` if `v1 < v2`, `0` if equal, `1` if greater (here as `CMPValues`). -/
def natCmp (v1 v2 : Nat) : CMPValues :=
  if v1 < v2 then CMPValues.LESS
  else if v2 < v1 then CMPValues.GREATER
  else CMPValues.EQUAL

namespace BST

/-- A BST as an inductive tree.  A Python `BST.Node` corresponds to a
`node` constructor; `None` children correspond to `leaf`.  The `parent`
field of the source is determined by the position of a node in the tree
(see `Loc` below for operations that walk `parent` pointers). -/
inductive Tree (α : Type) : Type where
  | leaf
  | node (left_child : Tree α) (key : α) (right_child : Tree α)
deriving DecidableEq

/-- `BST.__iterative_search` (bst.py lines 502-531): from `root`, go left
when `cmp_fn(target_key, root.key) == LESS`, right when it is `GREATER`,
otherwise return the current node; `None` when a null link is reached.
The returned node is modelled as the subtree rooted at it. -/
def iterative_search (cmp : α → α → CMPValues) (t : Tree α) (target_key : α) :
    Option (Tree α) :=
  match t with
  | Tree.leaf => none
  | Tree.node l k r =>
    if cmp target_key k = CMPValues.LESS then iterative_search cmp l target_key
    else if cmp target_key k = CMPValues.GREATER then iterative_search cmp r target_key
    else some (Tree.node l k r)

/-- `BST.__recursive_search` (bst.py lines 533-560), translated with its
comparison exactly as written in the source: the "traverse right" branch
tests `cmp_fn(root.key, root.key) == GREATER` (comparing the node's key
with itself), not a comparison against `target_key`. -/
def recursive_search (cmp : α → α → CMPValues) (t : Tree α) (target_key : α) :
    Option (Tree α) :=
  match t with
  | Tree.leaf => none
  | Tree.node l k r =>
    if cmp k target_key = CMPValues.EQUAL then some (Tree.node l k r)
    else if cmp k k = CMPValues.GREATER then recursive_search cmp r target_key
    else recursive_search cmp l target_key

/-- The `mode` argument of `search`/`insert_node`: either some string, or a
value that is not a string at all. -/
inductive ModeArg : Type where
  | str (s : String)
  | nonStr
deriving DecidableEq

/-- The two kinds of exception raised by the mode dispatch of the source:
`TypeError` when `mode` is not a string, `ValueError` when it is a string
other than `'i'` or `'r'`. -/
inductive PyError : Type where
  | typeError (msg : String)
  | valueError (msg : String)
deriving DecidableEq

/-- `BST.search` (bst.py lines 562-591).  The first component is the result
(`Except` for a raised error, `Option` node for found / not-found); the
second component is the state of the tree when the call returns or raises.
The source reads but never assigns `self.root` on any branch, so the state
component is the input tree on every path. -/
def search (cmp : α → α → CMPValues) (t : Tree α) (target_key : α)
    (mode : ModeArg) : Except PyError (Option (Tree α)) × Tree α :=
  match mode with
  | ModeArg.nonStr => (Except.error (PyError.typeError "`mode` must of TYPE `str`"), t)
  | ModeArg.str s =>
    if s = "i" then (Except.ok (iterative_search cmp t target_key), t)
    else if s = "r" then (Except.ok (recursive_search cmp t target_key), t)
    else (Except.error (PyError.valueError "`mode` must be of VALUE 'i' or 'r'"), t)

/-- `BST.__recursive_insert` (bst.py lines 224-249): at an empty slot the
new node is placed (its `parent` is set to the slot's parent, which in this
functional model is implied by the position); otherwise recurse left when
`cmp_fn(new_node.key, root.key) == LESS` and right otherwise, reassigning
the corresponding child pointer to the returned subtree. -/
def recursive_insert (cmp : α → α → CMPValues) (t : Tree α) (new_key : α) :
    Tree α :=
  match t with
  | Tree.leaf => Tree.node Tree.leaf new_key Tree.leaf
  | Tree.node l k r =>
    if cmp new_key k = CMPValues.LESS then
      Tree.node (recursive_insert cmp l new_key) k r
    else
      Tree.node l k (recursive_insert cmp r new_key)

/-- The loop of `BST.__iterative_insert` (bst.py lines 181-222) for a
non-empty tree: descend while `curr` is non-null, going left when
`cmp_fn(new_node.key, curr.key) == LESS` and right otherwise; when the next
slot is empty (`curr` becomes `None`), the node in hand is `prev` and the
new node is attached by re-comparing `cmp_fn(new_node.key, prev.key)`
(steps 4B/4C of the source). -/
def iterative_insert_go (cmp : α → α → CMPValues) (new_key : α) :
    Tree α → Tree α
  | Tree.leaf => Tree.leaf
  | Tree.node l k r =>
    if cmp new_key k = CMPValues.LESS then
      match l with
      | Tree.leaf =>
        if cmp new_key k = CMPValues.LESS then
          Tree.node (Tree.node Tree.leaf new_key Tree.leaf) k r
        else Tree.node l k (Tree.node Tree.leaf new_key Tree.leaf)
      | Tree.node a b c =>
        Tree.node (iterative_insert_go cmp new_key (Tree.node a b c)) k r
    else
      match r with
      | Tree.leaf =>
        if cmp new_key k = CMPValues.LESS then
          Tree.node (Tree.node Tree.leaf new_key Tree.leaf) k r
        else Tree.node l k (Tree.node Tree.leaf new_key Tree.leaf)
      | Tree.node a b c =>
        Tree.node l k (iterative_insert_go cmp new_key (Tree.node a b c))

/-- `BST.__iterative_insert` (bst.py lines 181-222): when the tree is empty
the loop never runs and `prev is None`, so the new node becomes the root
(step 4A); otherwise the descent loop `iterative_insert_go` runs. -/
def iterative_insert (cmp : α → α → CMPValues) (t : Tree α) (new_key : α) :
    Tree α :=
  match t with
  | Tree.leaf => Tree.node Tree.leaf new_key Tree.leaf
  | Tree.node l k r => iterative_insert_go cmp new_key (Tree.node l k r)

/-- `BST.insert_node` (bst.py lines 251-283).  First component: raised
error or success; second component: the tree when the call returns or
raises.  Before either `raise`, the source only constructs the new node
object (`new_node = BST.Node(new_key)`) and never assigns to `self`, so the
state component on the two error branches is the unchanged input tree. -/
def insert_node (cmp : α → α → CMPValues) (t : Tree α) (new_key : α)
    (mode : ModeArg) : Except PyError Unit × Tree α :=
  match mode with
  | ModeArg.nonStr => (Except.error (PyError.typeError "`mode` must of TYPE `str`"), t)
  | ModeArg.str s =>
    if s = "i" then (Except.ok (), iterative_insert cmp t new_key)
    else if s = "r" then (Except.ok (), recursive_insert cmp t new_key)
    else (Except.error (PyError.valueError "`mode` must be of VALUE 'i' or 'r'"), t)

/-- A direction taken at one step of an insertion descent: to the
`left_child` or to the `right_child`. -/
inductive Dir : Type where
  | L
  | R
deriving DecidableEq

/-- The sequence of directions the insertion descent of the source takes
for `new_key`: left when `cmp_fn(new_key, curr.key) == LESS`, right
otherwise, until an empty slot is reached (both `__iterative_insert`'s
loop and `__recursive_insert`'s recursion branch this way). -/
def insDirs (cmp : α → α → CMPValues) (new_key : α) : Tree α → List Dir
  | Tree.leaf => []
  | Tree.node l k r =>
    if cmp new_key k = CMPValues.LESS then Dir.L :: insDirs cmp new_key l
    else Dir.R :: insDirs cmp new_key r

/-- The subtree of `t` reached by following a list of directions;
`none` when the path walks off the tree. -/
def subtreeAt : Tree α → List Dir → Option (Tree α)
  | t, [] => some t
  | Tree.leaf, _ :: _ => none
  | Tree.node l _ _, Dir.L :: p => subtreeAt l p
  | Tree.node _ _ r, Dir.R :: p => subtreeAt r p

/-- Which callback a traversal applies at a visited node: the caller's
`operation` argument, or the default (`print`) that the source's walks use
for their recursive calls because they do not forward `operation`. -/
inductive OpId : Type where
  | supplied
  | dflt
deriving DecidableEq

/-- `BST.inorder_walk` (bst.py lines 445-462), as the trace of callback
invocations `(which callback, key)` in invocation order.  The source's
recursive calls `self.inorder_walk(root.left_child)` and
`self.inorder_walk(root.right_child)` omit the `operation` argument, so the
subtree visits use the default callback. -/
def inorder_walk (op : OpId) : Tree α → List (OpId × α)
  | Tree.leaf => []
  | Tree.node l k r =>
    inorder_walk OpId.dflt l ++ (op, k) :: inorder_walk OpId.dflt r

/-- `BST.preorder_walk` (bst.py lines 464-481); the recursive calls omit
`operation`, as in the source. -/
def preorder_walk (op : OpId) : Tree α → List (OpId × α)
  | Tree.leaf => []
  | Tree.node l k r =>
    (op, k) :: (preorder_walk OpId.dflt l ++ preorder_walk OpId.dflt r)

/-- `BST.postorder_walk` (bst.py lines 483-500); the recursive calls omit
`operation`, as in the source. -/
def postorder_walk (op : OpId) : Tree α → List (OpId × α)
  | Tree.leaf => []
  | Tree.node l k r =>
    postorder_walk OpId.dflt l ++ postorder_walk OpId.dflt r ++ [(op, k)]

/-- One step of the path from a node up to the root: the node is either the
`left_child` of a parent with key `k` and right subtree `r`, or the
`right_child` of a parent with key `k` and left subtree `l`.  This is the
zipper rendering of the `parent` back-references of `BST.Node`. -/
inductive Step (α : Type) : Type where
  | fromLeft (k : α) (r : Tree α)
  | fromRight (l : Tree α) (k : α)
deriving DecidableEq

/-- A node of a BST given by its subtree (`focus`) and the path of steps
from it back up to the root, i.e. its chain of `parent` pointers. -/
structure Loc (α : Type) : Type where
  focus : Tree α
  path : List (Step α)
deriving DecidableEq

/-- `BST.min_node` (bst.py lines 285-304) on a location: keep moving to the
`left_child` while one exists. -/
def minLoc : Tree α → List (Step α) → Loc α
  | Tree.leaf, p => ⟨Tree.leaf, p⟩
  | Tree.node Tree.leaf k r, p => ⟨Tree.node Tree.leaf k r, p⟩
  | Tree.node (Tree.node a b c) k r, p =>
    minLoc (Tree.node a b c) (Step.fromLeft k r :: p)

/-- `BST.max_node` (bst.py lines 306-325) on a location: keep moving to the
`right_child` while one exists. -/
def maxLoc : Tree α → List (Step α) → Loc α
  | Tree.leaf, p => ⟨Tree.leaf, p⟩
  | Tree.node l k Tree.leaf, p => ⟨Tree.node l k Tree.leaf, p⟩
  | Tree.node l k (Tree.node a b c), p =>
    maxLoc (Tree.node a b c) (Step.fromRight l k :: p)

/-- The ancestor loop of `BST.successor_node` (bst.py lines 374-379):
`successor = node.parent; while successor and node is
successor.right_child: climb`; returns the first ancestor reached through
its `left_child` link, or `None` when the ancestors are exhausted.  The
first argument is the subtree of the node the loop variable `node`
currently denotes. -/
def upFromRight : Tree α → List (Step α) → Option (Loc α)
  | _, [] => none
  | t, Step.fromRight l k :: p => upFromRight (Tree.node l k t) p
  | t, Step.fromLeft k r :: p => some ⟨Tree.node t k r, p⟩

/-- The ancestor loop of `BST.predecessor_node` (bst.py lines 347-352),
symmetric to `upFromRight`. -/
def upFromLeft : Tree α → List (Step α) → Option (Loc α)
  | _, [] => none
  | t, Step.fromLeft k r :: p => upFromLeft (Tree.node t k r) p
  | t, Step.fromRight l k :: p => some ⟨Tree.node l k t, p⟩

/-- `BST.successor_node` (bst.py lines 354-379): if the node has a
`right_child`, the successor is the minimum of that subtree; otherwise walk
up via `parent` until an ancestor is reached via its `left_child` link,
`None` when no such ancestor exists. -/
def successor_node (loc : Loc α) : Option (Loc α) :=
  match loc.focus with
  | Tree.leaf => none
  | Tree.node l k r =>
    match r with
    | Tree.leaf => upFromRight (Tree.node l k Tree.leaf) loc.path
    | Tree.node a b c =>
      some (minLoc (Tree.node a b c) (Step.fromRight l k :: loc.path))

/-- `BST.predecessor_node` (bst.py lines 327-352): if the node has a
`left_child`, the predecessor is the maximum of that subtree; otherwise
walk up via `parent` until an ancestor is reached via its `right_child`
link, `None` when no such ancestor exists. -/
def predecessor_node (loc : Loc α) : Option (Loc α) :=
  match loc.focus with
  | Tree.leaf => none
  | Tree.node l k r =>
    match l with
    | Tree.leaf => upFromLeft (Tree.node Tree.leaf k r) loc.path
    | Tree.node a b c =>
      some (maxLoc (Tree.node a b c) (Step.fromLeft k r :: loc.path))

end BST

namespace DLLS

/-- A `DLLS.Node` record (dlls.py lines 26-93): a key, and `next`/`prev`
pointers, modelled as optional indices into the node store. -/
structure NodeR (α : Type) : Type where
  key : α
  next : Option Nat
  prev : Option Nat
deriving DecidableEq

/-- The state of a `DLLS` object: the store of allocated node records
(a node's address is its index; allocation appends), and the `head` and
`tail` pointers.  `__init__` with a comparator creates the empty state
(dlls.py lines 95-104). -/
structure State (α : Type) : Type where
  store : List (NodeR α)
  head : Option Nat
  tail : Option Nat
deriving DecidableEq

/-- The empty DLLS created by `DLLS.__init__`. -/
def emptyState : State α := ⟨[], none, none⟩

/-- `DLLS.is_empty` (dlls.py lines 180-188). -/
def is_empty (d : State α) : Bool :=
  d.head = none && d.tail = none

/-- Assign the `next` field of the node at index `i` (the effect of the
source's `node.next = v` assignment on the store). -/
def setNext (s : List (NodeR α)) (i : Nat) (v : Option Nat) : List (NodeR α) :=
  match s[i]? with
  | some n => s.set i ⟨n.key, v, n.prev⟩
  | none => s

/-- `DLLS.push` (dlls.py lines 190-217): allocate a node with
`next = None`, `prev = self.tail`; if the list was empty it becomes both
`head` and `tail`, otherwise the old tail's `next` is rewired to it and
`tail` advances.  Returns the new state and the address of the new tail
node (the source returns `self.tail`). -/
def push (d : State α) (new_key : α) : State α × Nat :=
  let n := d.store.length
  let s1 := d.store ++ [⟨new_key, none, d.tail⟩]
  match d.tail with
  | none => (⟨s1, some n, some n⟩, n)
  | some t => (⟨setNext s1 t (some n), d.head, some n⟩, n)

/-- `DLLS.pop` (dlls.py lines 219-245): on an empty list, return `None`
without mutation; otherwise `tail` moves to the old tail's `prev`; if that
is `None` the list becomes empty (`head` cleared), else the new tail's
`next` is cleared.  Returns the new state and the source's return value
`self.tail` after the update (the address of the new tail, or `None`).
The inner `none` fallbacks cover dangling pointers that cannot occur in
states reachable from the empty list. -/
def pop (d : State α) : State α × Option Nat :=
  if d.head = none ∧ d.tail = none then (d, none)
  else
    match d.tail with
    | none => (d, none)
    | some ot =>
      match d.store[ot]? with
      | none => (d, none)
      | some n =>
        match n.prev with
        | none => (⟨d.store, none, none⟩, none)
        | some t => (⟨setNext d.store t none, d.head, some t⟩, some t)

/-- The key stored at address `i`, when allocated. -/
def getKey (d : State α) (i : Nat) : Option α :=
  (d.store[i]?).map NodeR.key

/-- A push or pop operation, for describing reachable states. -/
inductive StackOp (α : Type) : Type where
  | pushOp (new_key : α)
  | popOp

/-- Run one stack operation, keeping the state. -/
def stepOp (d : State α) : StackOp α → State α
  | StackOp.pushOp k => (push d k).1
  | StackOp.popOp => (pop d).1

/-- The state reached from the empty DLLS by a sequence of push/pop
operations. -/
def runOps (ops : List (StackOp α)) : State α :=
  ops.foldl stepOp emptyState

/-- `chain s pv ids` says that the addresses `ids`, read head-to-tail, form
a doubly linked chain in store `s`: each is allocated, its `prev` points to
the preceding element (`pv` for the first), and its `next` points to the
following element (`None` for the last). -/
def chain (s : List (NodeR α)) : Option Nat → List Nat → Prop
  | _, [] => True
  | pv, i :: rest =>
    ∃ n, s[i]? = some n ∧ n.prev = pv ∧ n.next = rest.head? ∧ chain s (some i) rest

/-- `listRep d ids`: the DLLS state `d` represents exactly the list of
nodes at addresses `ids` from head to tail: `head` is the first of `ids`,
`tail` the last, the addresses are distinct, and the `next`/`prev` fields
chain them together (the first `prev` and last `next` being `None`). -/
def listRep (d : State α) (ids : List Nat) : Prop :=
  d.head = ids.head? ∧ d.tail = ids.getLast? ∧ ids.Nodup ∧ chain d.store none ids

/-- The loop of `DLLS.__iterative_search` (dlls.py lines 247-272): walk
`curr = curr.next` from the given node, returning the first node whose key
compares `EQUAL` to `target_key`.  Python terminates because the object
graph reachable from `head` is a finite chain; the model uses the store
size as fuel, which bounds the length of any `Nodup` chain. -/
def iterative_search_go (cmp : α → α → CMPValues) (d : State α)
    (target_key : α) : Nat → Option Nat → Option Nat
  | 0, _ => none
  | _, none => none
  | fuel + 1, some i =>
    match d.store[i]? with
    | none => none
    | some n =>
      if cmp n.key target_key = CMPValues.EQUAL then some i
      else iterative_search_go cmp d target_key fuel n.next

/-- `DLLS.__iterative_search` (dlls.py lines 247-272): linear scan starting
at `self.head`. -/
def iterative_search (cmp : α → α → CMPValues) (d : State α)
    (target_key : α) : Option Nat :=
  iterative_search_go cmp d target_key d.store.length d.head

/-- `DLLS.__recursive_search` (dlls.py lines 274-297): `None` past the
tail; the current node when its key compares `EQUAL` to `target_key`;
otherwise recurse on `self_head.next`.  Same fuel discipline as the
iterative scan. -/
def recursive_search_go (cmp : α → α → CMPValues) (d : State α)
    (target_key : α) : Nat → Option Nat → Option Nat
  | 0, _ => none
  | _, none => none
  | fuel + 1, some i =>
    match d.store[i]? with
    | none => none
    | some n =>
      if cmp n.key target_key = CMPValues.EQUAL then some i
      else recursive_search_go cmp d target_key fuel n.next

/-- `DLLS.__recursive_search` called from `search` with `self.head`. -/
def recursive_search (cmp : α → α → CMPValues) (d : State α)
    (target_key : α) : Option Nat :=
  recursive_search_go cmp d target_key d.store.length d.head

/-- `DLLS.search` (dlls.py lines 299-329): `TypeError` when `mode` is not
a `str`, the iterative scan for `'i'`, the recursive scan for `'r'`,
`ValueError` for any other string.  Second component: the state when the
call returns or raises; every branch of the source is read-only. -/
def search (cmp : α → α → CMPValues) (d : State α) (target_key : α)
    (mode : BST.ModeArg) : Except BST.PyError (Option Nat) × State α :=
  match mode with
  | BST.ModeArg.nonStr =>
    (Except.error (BST.PyError.typeError "`mode` must of TYPE `str`"), d)
  | BST.ModeArg.str s =>
    if s = "i" then (Except.ok (iterative_search cmp d target_key), d)
    else if s = "r" then (Except.ok (recursive_search cmp d target_key), d)
    else (Except.error (BST.PyError.valueError "`mode` must be of VALUE 'i' or 'r'"), d)

/-- Whether the node at address `i` matches `target_key` under the
comparator (used to state what "first match" means). -/
def keyMatches (cmp : α → α → CMPValues) (d : State α) (target_key : α)
    (i : Nat) : Bool :=
  match d.store[i]? with
  | some n => cmp n.key target_key = CMPValues.EQUAL
  | none => false

end DLLS

/-- The tree obtained by inserting 1 then 2 into an empty BST with the
numeric comparator: root 1 with right child 2. -/
def BST.exTree12 : BST.Tree Nat :=
  BST.Tree.node BST.Tree.leaf 1 (BST.Tree.node BST.Tree.leaf 2 BST.Tree.leaf)

/-- A three-node tree (root 2, left child 1, right child 3) used to
evaluate the traversal walks. -/
def BST.exTree213 : BST.Tree Nat :=
  BST.Tree.node (BST.Tree.node BST.Tree.leaf 1 BST.Tree.leaf) 2
    (BST.Tree.node BST.Tree.leaf 3 BST.Tree.leaf)

/-- The DLLS state after pushing the keys 1, 2, 3 in that order onto an
initially empty stack. -/
def DLLS.stack123 : DLLS.State Nat :=
  (DLLS.push (DLLS.push (DLLS.push DLLS.emptyState 1).1 2).1 3).1

/-!
## Theorems

Helper lemmas come first; each claim's theorem carries a doc comment
naming the claim.
-/

/-- The iterative descent loop and the recursive insertion place the new
key identically on every non-empty tree. -/
theorem BST.iterative_insert_eq_recursive_insert
    (cmp : α → α → CMPValues) (x : α) :
    ∀ t : BST.Tree α,
      BST.iterative_insert cmp t x = BST.recursive_insert cmp t x := by
  intro t
  induction t with
  | leaf => rfl
  | node l k r ihl ihr =>
    by_cases h : cmp x k = CMPValues.LESS
    · cases l with
      | leaf =>
        simp [BST.iterative_insert, BST.iterative_insert_go.eq_def,
          BST.recursive_insert, h]
      | node a b c =>
        have hgo : BST.iterative_insert cmp
              (BST.Tree.node (BST.Tree.node a b c) k r) x
            = BST.Tree.node (BST.iterative_insert cmp (BST.Tree.node a b c) x) k r := by
          show BST.iterative_insert_go cmp x _ = _
          rw [BST.iterative_insert_go.eq_def]
          simp only [h, if_pos]
          rfl
        rw [hgo, ihl]
        simp [BST.recursive_insert, h]
    · cases r with
      | leaf =>
        simp [BST.iterative_insert, BST.iterative_insert_go.eq_def,
          BST.recursive_insert, h]
      | node a b c =>
        have hgo : BST.iterative_insert cmp
              (BST.Tree.node l k (BST.Tree.node a b c)) x
            = BST.Tree.node l k (BST.iterative_insert cmp (BST.Tree.node a b c) x) := by
          show BST.iterative_insert_go cmp x _ = _
          rw [BST.iterative_insert_go.eq_def]
          simp only [h, if_neg, if_false]
          rfl
        rw [hgo, ihr]
        simp [BST.recursive_insert, h]

/-- Folding the two insertion strategies over any key sequence from any
common starting tree yields the same tree. -/
theorem BST.foldl_insert_eq (cmp : α → α → CMPValues) :
    ∀ (ks : List α) (t : BST.Tree α),
      List.foldl (fun t k => BST.iterative_insert cmp t k) t ks
        = List.foldl (fun t k => BST.recursive_insert cmp t k) t ks := by
  intro ks
  induction ks with
  | nil => intro t; rfl
  | cons k ks ih =>
    intro t
    simp only [List.foldl_cons]
    rw [BST.iterative_insert_eq_recursive_insert cmp k t, ih]

/-- Claim C4: for every sequence of keys inserted into an initially empty
BST, inserting them all with mode `'i'` and with mode `'r'` produces
isomorphic trees — in this model the trees are equal, so they have the same
shape, the same keys at corresponding positions, and (parent pointers being
determined by a node's position, which both source paths maintain) the
corresponding parent links. -/
theorem BST.insert_modes_produce_equal_trees (cmp : α → α → CMPValues) :
    (∀ (t : BST.Tree α) (x : α),
        BST.iterative_insert cmp t x = BST.recursive_insert cmp t x) ∧
    ∀ ks : List α,
      List.foldl (fun t k => BST.iterative_insert cmp t k) BST.Tree.leaf ks
        = List.foldl (fun t k => BST.recursive_insert cmp t k) BST.Tree.leaf ks := by
  refine ⟨fun t x => BST.iterative_insert_eq_recursive_insert cmp x t, ?_⟩
  intro ks
  exact BST.foldl_insert_eq cmp ks BST.Tree.leaf

/-- Claim C1 (code_bug evaluation): on the tree with root 1 and right
child 2 and the numeric comparator, `search` with mode `'i'` finds the
node with key 2 while `search` with mode `'r'` returns the not-found
sentinel, because the recursive search's "traverse right" branch compares
`root.key` with itself instead of with the target. -/
theorem BST.search_modes_disagree_on_right_subtree :
    (BST.search natCmp BST.exTree12 2 (BST.ModeArg.str "i")).1
      = Except.ok (some (BST.Tree.node BST.Tree.leaf 2 BST.Tree.leaf)) ∧
    (BST.search natCmp BST.exTree12 2 (BST.ModeArg.str "r")).1
      = Except.ok none := by
  constructor <;> rfl

/-- Claim C2 (code_bug evaluation): walking the three-node tree
(root 2, children 1 and 3) with a supplied callback, each walk passes only
the starting node's key to the supplied callback; the keys of the child
nodes are passed to the default callback (`print`), because the source's
recursive calls omit the `operation` argument.  The visit *order* is the
stated one (inorder: left, self, right; preorder: self, left, right;
postorder: left, right, self). -/
theorem BST.walks_do_not_forward_supplied_callback :
    BST.inorder_walk BST.OpId.supplied BST.exTree213
      = [(BST.OpId.dflt, 1), (BST.OpId.supplied, 2), (BST.OpId.dflt, 3)] ∧
    BST.preorder_walk BST.OpId.supplied BST.exTree213
      = [(BST.OpId.supplied, 2), (BST.OpId.dflt, 1), (BST.OpId.dflt, 3)] ∧
    BST.postorder_walk BST.OpId.supplied BST.exTree213
      = [(BST.OpId.dflt, 1), (BST.OpId.dflt, 3), (BST.OpId.supplied, 2)] ∧
    BST.OpId.dflt ≠ BST.OpId.supplied := by
  refine ⟨rfl, rfl, rfl, ?_⟩
  decide

/-- Claim C3 (counterexample): after pushing 1, 2, 3, the first `pop()`
does not return the node with key 3 — it returns the *new* tail, whose key
is 2. -/
theorem DLLS.first_pop_returns_new_tail_key_two :
    ((DLLS.pop DLLS.stack123).2.bind
        fun i => DLLS.getKey (DLLS.pop DLLS.stack123).1 i) = some 2 ∧
    (some 2 : Option Nat) ≠ some 3 := by
  refine ⟨?_, by decide⟩
  rfl

/-- Claim C3 (amended): after pushing 1, 2, 3, `pop()` returns the new
tail each time: the first call returns the node with key 2, the second the
node with key 1, the third returns `None` (the list has just become
empty), and the fourth, on the empty stack, also returns `None`. -/
theorem DLLS.pop_sequence_returns_new_tails :
    ((DLLS.pop DLLS.stack123).2.bind
        fun i => DLLS.getKey (DLLS.pop DLLS.stack123).1 i) = some 2 ∧
    ((DLLS.pop (DLLS.pop DLLS.stack123).1).2.bind
        fun i => DLLS.getKey (DLLS.pop (DLLS.pop DLLS.stack123).1).1 i) = some 1 ∧
    (DLLS.pop (DLLS.pop (DLLS.pop DLLS.stack123).1).1).2 = none ∧
    (DLLS.pop (DLLS.pop (DLLS.pop (DLLS.pop DLLS.stack123).1).1).1).2 = none := by
  refine ⟨rfl, rfl, rfl, rfl⟩

/-- The recursive insertion places the new key exactly at the end of the
comparator descent path: following `insDirs` through the updated tree
reaches the fresh leaf node carrying the new key. -/
theorem BST.subtreeAt_recursive_insert (cmp : α → α → CMPValues) (x : α) :
    ∀ t : BST.Tree α,
      BST.subtreeAt (BST.recursive_insert cmp t x) (BST.insDirs cmp x t)
        = some (BST.Tree.node BST.Tree.leaf x BST.Tree.leaf) := by
  intro t
  induction t with
  | leaf => rfl
  | node l k r ihl ihr =>
    by_cases h : cmp x k = CMPValues.LESS
    · simp [BST.insDirs, BST.recursive_insert, BST.subtreeAt, h, ihl]
    · simp [BST.insDirs, BST.recursive_insert, BST.subtreeAt, h, ihr]

/-- Following the empty path stays at the given tree. -/
theorem BST.subtreeAt_nil (t : BST.Tree α) : BST.subtreeAt t [] = some t := by
  cases t <;> rfl

/-- Along the descent path of an insertion, the step taken at an ancestor
node is to the left exactly when the comparator reports the new key LESS
than that ancestor's key. -/
theorem BST.insDirs_left_iff_less (cmp : α → α → CMPValues) (x : α) :
    ∀ (q : List BST.Dir) (t : BST.Tree α) (d : BST.Dir) (rest : List BST.Dir)
      (la : BST.Tree α) (ka : α) (ra : BST.Tree α),
      BST.insDirs cmp x t = q ++ d :: rest →
      BST.subtreeAt t q = some (BST.Tree.node la ka ra) →
      (d = BST.Dir.L ↔ cmp x ka = CMPValues.LESS) := by
  intro q
  induction q with
  | nil =>
    intro t d rest la ka ra h1 h2
    have ht : t = BST.Tree.node la ka ra := by
      rw [BST.subtreeAt_nil] at h2
      exact Option.some.inj h2
    subst ht
    by_cases hc : cmp x ka = CMPValues.LESS
    · rw [BST.insDirs, if_pos hc] at h1
      have hd : d = BST.Dir.L := (List.cons.inj (h1.symm)).1
      exact ⟨fun _ => hc, fun _ => hd⟩
    · rw [BST.insDirs, if_neg hc] at h1
      have hd : d = BST.Dir.R := (List.cons.inj (h1.symm)).1
      constructor
      · intro hdl; rw [hd] at hdl; cases hdl
      · intro hl; exact absurd hl hc
  | cons e q' ih =>
    intro t d rest la ka ra h1 h2
    cases t with
    | leaf => cases h2
    | node l k r =>
      by_cases hc : cmp x k = CMPValues.LESS
      · rw [BST.insDirs, if_pos hc] at h1
        have he : BST.Dir.L = e := (List.cons.inj h1).1
        have htl : BST.insDirs cmp x l = q' ++ d :: rest := (List.cons.inj h1).2
        subst he
        rw [show BST.subtreeAt (BST.Tree.node l k r) (BST.Dir.L :: q')
              = BST.subtreeAt l q' from rfl] at h2
        exact ih l d rest la ka ra htl h2
      · rw [BST.insDirs, if_neg hc] at h1
        have he : BST.Dir.R = e := (List.cons.inj h1).1
        have htr : BST.insDirs cmp x r = q' ++ d :: rest := (List.cons.inj h1).2
        subst he
        rw [show BST.subtreeAt (BST.Tree.node l k r) (BST.Dir.R :: q')
              = BST.subtreeAt r q' from rfl] at h2
        exact ih r d rest la ka ra htr h2

/-- Claim C5: during `insert_node` (either mode), at every step of the
descent the walk moves to the left child exactly when the comparator
reports the new key LESS than the current node's key, and to the right
child otherwise; in particular a key comparing EQUAL to an existing node's
key is routed into that node's right subtree.  The new key lands exactly at
the end of the descent path `insDirs`, under both insertion strategies. -/
theorem BST.insert_descends_left_iff_less
    (cmp : α → α → CMPValues) (x : α) (t : BST.Tree α) :
    BST.subtreeAt (BST.recursive_insert cmp t x) (BST.insDirs cmp x t)
      = some (BST.Tree.node BST.Tree.leaf x BST.Tree.leaf) ∧
    BST.subtreeAt (BST.iterative_insert cmp t x) (BST.insDirs cmp x t)
      = some (BST.Tree.node BST.Tree.leaf x BST.Tree.leaf) ∧
    ∀ (q : List BST.Dir) (d : BST.Dir) (rest : List BST.Dir)
      (la : BST.Tree α) (ka : α) (ra : BST.Tree α),
      BST.insDirs cmp x t = q ++ d :: rest →
      BST.subtreeAt t q = some (BST.Tree.node la ka ra) →
      ((d = BST.Dir.L ↔ cmp x ka = CMPValues.LESS) ∧
       (cmp x ka = CMPValues.EQUAL → d = BST.Dir.R)) := by
  refine ⟨BST.subtreeAt_recursive_insert cmp x t, ?_, ?_⟩
  · rw [BST.iterative_insert_eq_recursive_insert cmp x t]
    exact BST.subtreeAt_recursive_insert cmp x t
  · intro q d rest la ka ra h1 h2
    have hiff := BST.insDirs_left_iff_less cmp x q t d rest la ka ra h1 h2
    refine ⟨hiff, ?_⟩
    intro he
    have hnl : ¬ cmp x ka = CMPValues.LESS := by
      rw [he]; intro hh; cases hh
    cases d with
    | L => exact absurd (hiff.mp rfl) hnl
    | R => rfl

/-- Witness for C5: inserting the duplicate key 5 into the single-node
tree holding 5 takes the step `R` at the root, and `EQUAL` forces `R`. -/
theorem BST.insert_descends_left_iff_less_witness :
    (BST.Dir.R = BST.Dir.L ↔ natCmp 5 5 = CMPValues.LESS) ∧
    (natCmp 5 5 = CMPValues.EQUAL → BST.Dir.R = BST.Dir.R) :=
  (BST.insert_descends_left_iff_less natCmp 5
      (BST.Tree.node BST.Tree.leaf 5 BST.Tree.leaf)).2.2
    [] BST.Dir.R [] BST.Tree.leaf 5 BST.Tree.leaf (by decide) (by decide)

/-- The node reached by `min_node` has no left child. -/
theorem BST.minLoc_focus_shape :
    ∀ t : BST.Tree α, t ≠ BST.Tree.leaf → ∀ p : List (BST.Step α),
      ∃ k' r', (BST.minLoc t p).focus = BST.Tree.node BST.Tree.leaf k' r' := by
  intro t
  induction t with
  | leaf => intro h; exact absurd rfl h
  | node l k r ihl ihr =>
    intro _ p
    cases l with
    | leaf => exact ⟨k, r, rfl⟩
    | node a b c =>
      exact ihl (by intro hh; cases hh) (BST.Step.fromLeft k r :: p)

/-- Climbing leftward-up from the node `min_node` reaches is the same as
climbing leftward-up from the subtree `min_node` started at: the left-spine
descent is undone step by step by the predecessor's ancestor loop. -/
theorem BST.upFromLeft_minLoc :
    ∀ t : BST.Tree α, t ≠ BST.Tree.leaf → ∀ p : List (BST.Step α),
      BST.upFromLeft (BST.minLoc t p).focus (BST.minLoc t p).path
        = BST.upFromLeft t p := by
  intro t
  induction t with
  | leaf => intro h; exact absurd rfl h
  | node l k r ihl ihr =>
    intro _ p
    cases l with
    | leaf => rfl
    | node a b c =>
      have step : BST.minLoc (BST.Tree.node (BST.Tree.node a b c) k r) p
          = BST.minLoc (BST.Tree.node a b c) (BST.Step.fromLeft k r :: p) := rfl
      rw [step, ihl (by intro hh; cases hh) (BST.Step.fromLeft k r :: p)]
      rfl

/-- On a node with no left child, `predecessor_node` is exactly the
leftward ancestor climb from that node. -/
theorem BST.predecessor_node_of_leaf_left (m : BST.Loc α) (k' : α)
    (r' : BST.Tree α)
    (h : m.focus = BST.Tree.node BST.Tree.leaf k' r') :
    BST.predecessor_node m = BST.upFromLeft m.focus m.path := by
  cases m with
  | mk f p =>
    simp only at h
    subst h
    rfl

/-- The ancestor climb of `successor_node`, when it finds an ancestor,
reaches a node whose predecessor is the node the climb started from:
`maxLoc` re-descends exactly the chain of right-child links the climb
popped.  `w` accumulates the popped steps and `t₀` is the original node. -/
theorem BST.predecessor_node_upFromRight :
    ∀ (p : List (BST.Step α)) (t t₀ : BST.Tree α) (w : List (BST.Step α)),
      (∀ q, BST.maxLoc t q = ⟨t₀, w ++ q⟩) → t ≠ BST.Tree.leaf →
      ∀ s : BST.Loc α, BST.upFromRight t p = some s →
        BST.predecessor_node s = some ⟨t₀, w ++ p⟩ := by
  intro p
  induction p with
  | nil => intro t t₀ w hmax hne s hs; cases hs
  | cons st rest ih =>
    intro t t₀ w hmax hne s hs
    cases st with
    | fromLeft K R =>
      have hs' : some (⟨BST.Tree.node t K R, rest⟩ : BST.Loc α) = some s := hs
      have hseq := Option.some.inj hs'
      subst hseq
      cases t with
      | leaf => exact absurd rfl hne
      | node a b c =>
        show some (BST.maxLoc (BST.Tree.node a b c) (BST.Step.fromLeft K R :: rest))
            = some ⟨t₀, w ++ (BST.Step.fromLeft K R :: rest)⟩
        rw [hmax (BST.Step.fromLeft K R :: rest)]
    | fromRight l1 k1 =>
      have hs' : BST.upFromRight (BST.Tree.node l1 k1 t) rest = some s := hs
      have hmax' : ∀ q, BST.maxLoc (BST.Tree.node l1 k1 t) q
          = ⟨t₀, (w ++ [BST.Step.fromRight l1 k1]) ++ q⟩ := by
        intro q
        cases t with
        | leaf => exact absurd rfl hne
        | node a b c =>
          have : BST.maxLoc (BST.Tree.node l1 k1 (BST.Tree.node a b c)) q
              = BST.maxLoc (BST.Tree.node a b c) (BST.Step.fromRight l1 k1 :: q) := rfl
          rw [this, hmax (BST.Step.fromRight l1 k1 :: q)]
          simp
      have := ih (BST.Tree.node l1 k1 t) t₀ (w ++ [BST.Step.fromRight l1 k1])
        hmax' (by intro hh; cases hh) s hs'
      rw [this]
      simp

/-- Claim C6: whenever `successor_node(n)` returns a node `s`,
`predecessor_node(s)` returns exactly `n` — the two operations are inverses
wherever the successor is defined (and the predecessor of such an `s` is
always defined, so in particular they agree wherever both are defined). -/
theorem BST.predecessor_of_successor (loc s : BST.Loc α)
    (h : BST.successor_node loc = some s) :
    BST.predecessor_node s = some loc := by
  cases loc with
  | mk f p =>
    cases f with
    | leaf => cases h
    | node l k r =>
      cases r with
      | leaf =>
        have h' : BST.upFromRight (BST.Tree.node l k BST.Tree.leaf) p = some s := h
        have := BST.predecessor_node_upFromRight p
          (BST.Tree.node l k BST.Tree.leaf) (BST.Tree.node l k BST.Tree.leaf) []
          (fun q => rfl) (by intro hh; cases hh) s h'
        simpa using this
      | node a b c =>
        have h' : some (BST.minLoc (BST.Tree.node a b c)
              (BST.Step.fromRight l k :: p)) = some s := h
        have hseq := Option.some.inj h'
        subst hseq
        obtain ⟨k', r', hshape⟩ := BST.minLoc_focus_shape (BST.Tree.node a b c)
          (by intro hh; cases hh) (BST.Step.fromRight l k :: p)
        rw [BST.predecessor_node_of_leaf_left _ k' r' hshape]
        rw [BST.upFromLeft_minLoc (BST.Tree.node a b c)
          (by intro hh; cases hh) (BST.Step.fromRight l k :: p)]
        rfl

/-- Witness for C6: in the tree with root 1 and right child 2, the
successor of the root is the node 2, and the predecessor of node 2 is the
root. -/
theorem BST.predecessor_of_successor_witness :
    BST.predecessor_node
        (⟨BST.Tree.node BST.Tree.leaf 2 BST.Tree.leaf,
          [BST.Step.fromRight BST.Tree.leaf 1]⟩ : BST.Loc Nat)
      = some ⟨BST.Tree.node BST.Tree.leaf 1
          (BST.Tree.node BST.Tree.leaf 2 BST.Tree.leaf), []⟩ :=
  BST.predecessor_of_successor
    ⟨BST.Tree.node BST.Tree.leaf 1 (BST.Tree.node BST.Tree.leaf 2 BST.Tree.leaf), []⟩
    ⟨BST.Tree.node BST.Tree.leaf 2 BST.Tree.leaf, [BST.Step.fromRight BST.Tree.leaf 1]⟩
    (by rfl)

/-- Every address on a chain is an allocated index of the store. -/
theorem DLLS.chain_lt (s : List (DLLS.NodeR α)) :
    ∀ (ids : List Nat) (pv : Option Nat), DLLS.chain s pv ids →
      ∀ i ∈ ids, i < s.length := by
  intro ids
  induction ids with
  | nil => intro pv _ i hi; cases hi
  | cons j rest ih =>
    intro pv h i hi
    obtain ⟨n, hn, _, _, hch⟩ := h
    rcases List.mem_cons.mp hi with rfl | hi'
    · by_contra hc
      push_neg at hc
      rw [List.getElem?_eq_none hc] at hn
      cases hn
    · exact ih (some j) hch i hi'

/-- Extending the store with fresh nodes preserves a chain. -/
theorem DLLS.chain_append_store (s xs : List (DLLS.NodeR α)) :
    ∀ (ids : List Nat) (pv : Option Nat), DLLS.chain s pv ids →
      DLLS.chain (s ++ xs) pv ids := by
  intro ids
  induction ids with
  | nil => intro pv _; trivial
  | cons j rest ih =>
    intro pv h
    obtain ⟨n, hn, hprev, hnext, hch⟩ := h
    have hj : j < s.length := DLLS.chain_lt s (j :: rest) pv
      ⟨n, hn, hprev, hnext, hch⟩ j (List.mem_cons_self j rest)
    refine ⟨n, ?_, hprev, hnext, ih (some j) hch⟩
    rw [List.getElem?_append, if_pos hj]
    exact hn

/-- Updating a store cell outside a chain preserves the chain. -/
theorem DLLS.chain_set_outside (s : List (DLLS.NodeR α)) (i : Nat)
    (v : DLLS.NodeR α) :
    ∀ (ids : List Nat) (pv : Option Nat), i ∉ ids → DLLS.chain s pv ids →
      DLLS.chain (s.set i v) pv ids := by
  intro ids
  induction ids with
  | nil => intro pv _ _; trivial
  | cons j rest ih =>
    intro pv hni h
    obtain ⟨n, hn, hprev, hnext, hch⟩ := h
    have hij : i ≠ j := fun he => hni (he ▸ List.mem_cons_self j rest)
    refine ⟨n, ?_, hprev, hnext, ih (some j) (fun hm => hni (List.mem_cons_of_mem j hm)) hch⟩
    rw [List.getElem?_set_ne hij]
    exact hn

/-- A list with a known last element contains it. -/
theorem DLLS.mem_of_getLast?_eq (l : List Nat) (a : Nat)
    (h : l.getLast? = some a) : a ∈ l := by
  obtain ⟨hne, heq⟩ := List.mem_getLast?_eq_getLast (Option.mem_def.mpr h)
  rw [heq]
  exact List.getLast_mem hne

/-- Appending to a non-empty list does not change its head. -/
theorem DLLS.head?_append_singleton (l : List Nat) (a : Nat) (h : l ≠ []) :
    (l ++ [a]).head? = l.head? := by
  cases l with
  | nil => exact absurd rfl h
  | cons x xs => rfl

/-- Core of the push transition: if `ids` is a chain through `s` ending at
`t`, and `s2` is a store that agrees with `s` away from `t`, has the node
at `t` rewired to `next = some m`, and has a fresh node
`{key := k, next := none, prev := some t}` at `m`, then `ids ++ [m]` is a
chain through `s2`. -/
theorem DLLS.chain_push_aux (s s2 : List (DLLS.NodeR α)) (k : α) (t m : Nat)
    (H1 : ∀ i, i ≠ t → i < s.length → s2[i]? = s[i]?)
    (H2 : ∀ n : DLLS.NodeR α, s[t]? = some n →
      s2[t]? = some ⟨n.key, some m, n.prev⟩)
    (H3 : s2[m]? = some ⟨k, none, some t⟩) :
    ∀ (ids : List Nat) (pv : Option Nat),
      DLLS.chain s pv ids → ids.getLast? = some t → ids.Nodup →
      DLLS.chain s2 pv (ids ++ [m]) := by
  intro ids
  induction ids with
  | nil => intro pv _ hlast _; cases hlast
  | cons j rest ih =>
    intro pv hchain hlast hnd
    obtain ⟨n, hn, hprev, hnext, hch⟩ := hchain
    cases rest with
    | nil =>
      have hjt : j = t := Option.some.inj hlast
      subst hjt
      refine ⟨⟨n.key, some m, n.prev⟩, H2 n hn, hprev, rfl, ?_⟩
      exact ⟨⟨k, none, some j⟩, H3, rfl, rfl, trivial⟩
    | cons j2 rest2 =>
      have hlast' : (j2 :: rest2).getLast? = some t := by
        rw [← List.getLast?_cons_cons (a := j)]
        exact hlast
      have htmem : t ∈ j2 :: rest2 := DLLS.mem_of_getLast?_eq _ t hlast'
      have hjnot : j ∉ j2 :: rest2 := (List.nodup_cons.mp hnd).1
      have hjt : j ≠ t := fun he => hjnot (he ▸ htmem)
      have hjlt : j < s.length :=
        DLLS.chain_lt s (j :: j2 :: rest2) pv ⟨n, hn, hprev, hnext, hch⟩ j
          (List.mem_cons_self j _)
      refine ⟨n, ?_, hprev, hnext, ?_⟩
      · rw [H1 j hjt hjlt]
        exact hn
      · exact ih (some j) hch hlast' (List.nodup_cons.mp hnd).2

/-- `push` preserves the list representation: the new node's address is
appended at the tail end. -/
theorem DLLS.push_listRep (d : DLLS.State α) (k : α) (ids : List Nat)
    (h : DLLS.listRep d ids) :
    DLLS.listRep (DLLS.push d k).1 (ids ++ [d.store.length]) := by
  obtain ⟨hh, ht, hnd, hch⟩ := h
  cases htail : d.tail with
  | none =>
    have hids : ids = [] := by
      cases ids with
      | nil => rfl
      | cons x xs =>
        rw [htail, List.getLast?_eq_getLast_of_ne_nil (List.cons_ne_nil x xs)] at ht
        simp at ht
    subst hids
    have hpush : DLLS.push d k
        = (⟨d.store ++ ([⟨k, none, d.tail⟩] : List (DLLS.NodeR α)),
            some d.store.length, some d.store.length⟩, d.store.length) := by
      simp only [DLLS.push, htail]
    show DLLS.listRep (DLLS.push d k).1 [d.store.length]
    rw [hpush, htail]
    refine ⟨rfl, rfl, List.nodup_singleton _, ?_⟩
    exact ⟨⟨k, none, none⟩, List.getElem?_concat_length d.store ⟨k, none, none⟩,
      rfl, rfl, trivial⟩
  | some t =>
    have htids : ids.getLast? = some t := by rw [← ht, htail]
    have hids_ne : ids ≠ [] := by
      intro hx
      rw [hx] at htids
      cases htids
    have htmem : t ∈ ids := DLLS.mem_of_getLast?_eq ids t htids
    have htlt : t < d.store.length := DLLS.chain_lt d.store ids none hch t htmem
    obtain ⟨nt, hnt⟩ : ∃ nt, d.store[t]? = some nt :=
      ⟨d.store[t], List.getElem?_eq_getElem htlt⟩
    have hs1t : (d.store ++ ([⟨k, none, d.tail⟩] : List (DLLS.NodeR α)))[t]?
        = some nt := by
      rw [List.getElem?_append, if_pos htlt]
      exact hnt
    have hs1len : (d.store ++ ([⟨k, none, d.tail⟩] : List (DLLS.NodeR α))).length
        = d.store.length + 1 := by simp
    have hset : DLLS.setNext (d.store ++ ([⟨k, none, d.tail⟩] : List (DLLS.NodeR α))) t
          (some d.store.length)
        = (d.store ++ ([⟨k, none, d.tail⟩] : List (DLLS.NodeR α))).set t
            (⟨nt.key, some d.store.length, nt.prev⟩ : DLLS.NodeR α) := by
      simp only [DLLS.setNext, hs1t]
    have hpush : (DLLS.push d k).1
        = ⟨DLLS.setNext (d.store ++ ([⟨k, none, d.tail⟩] : List (DLLS.NodeR α))) t
            (some d.store.length), d.head, some d.store.length⟩ := by
      simp only [DLLS.push, htail]
    have H1 : ∀ i, i ≠ t → i < d.store.length →
        (DLLS.setNext (d.store ++ ([⟨k, none, d.tail⟩] : List (DLLS.NodeR α))) t
          (some d.store.length))[i]? = d.store[i]? := by
      intro i hit hilt
      rw [hset, List.getElem?_set_ne (fun he => hit he.symm),
        List.getElem?_append, if_pos hilt]
    have H2 : ∀ n : DLLS.NodeR α, d.store[t]? = some n →
        (DLLS.setNext (d.store ++ ([⟨k, none, d.tail⟩] : List (DLLS.NodeR α))) t
          (some d.store.length))[t]?
          = some ⟨n.key, some d.store.length, n.prev⟩ := by
      intro n hn
      rw [hn] at hnt
      have hnnt : n = nt := Option.some.inj hnt
      subst hnnt
      rw [hset, List.getElem?_set_self]
      rw [hs1len]
      omega
    have H3 : (DLLS.setNext (d.store ++ ([⟨k, none, d.tail⟩] : List (DLLS.NodeR α))) t
        (some d.store.length))[d.store.length]?
        = some ⟨k, none, some t⟩ := by
      rw [hset, List.getElem?_set_ne (by omega : t ≠ d.store.length), htail]
      exact List.getElem?_concat_length d.store ⟨k, none, some t⟩
    rw [hpush]
    refine ⟨?_, ?_, ?_, ?_⟩
    · rw [hh, DLLS.head?_append_singleton ids _ hids_ne]
    · rw [List.getLast?_concat]
    · rw [List.nodup_append]
      refine ⟨hnd, List.nodup_singleton _, ?_⟩
      intro x hx hx2
      have hxm : x = d.store.length := by simpa using hx2
      subst hxm
      exact absurd (DLLS.chain_lt d.store ids none hch _ hx) (by omega)
    · exact DLLS.chain_push_aux d.store _ k t d.store.length H1 H2 H3 ids none
        hch htids hnd

/-- The head of a list is unchanged by dropping a second appended element. -/
theorem DLLS.head?_append_pair (l : List Nat) (u t : Nat) :
    (l ++ [u, t]).head? = (l ++ [u]).head? := by
  cases l <;> rfl

/-- The last node of a two-or-more element chain: allocated, `next = None`,
and `prev` pointing at the second-to-last address. -/
theorem DLLS.chain_last_pair (s : List (DLLS.NodeR α)) (u t : Nat) :
    ∀ (l : List Nat) (pv : Option Nat), DLLS.chain s pv (l ++ [u, t]) →
      ∃ n, s[t]? = some n ∧ n.prev = some u ∧ n.next = none := by
  intro l
  induction l with
  | nil =>
    intro pv h
    obtain ⟨nu, hnu, _, _, hch⟩ := h
    obtain ⟨n, hn, hprev, hnext, _⟩ := hch
    exact ⟨n, hn, hprev, hnext⟩
  | cons i l' ih =>
    intro pv h
    obtain ⟨n, _, _, _, hch⟩ := h
    exact ih (some i) hch

/-- The last node of any chain has `next = None`. -/
theorem DLLS.chain_last_next (s : List (DLLS.NodeR α)) (t : Nat) :
    ∀ (l : List Nat) (pv : Option Nat), DLLS.chain s pv (l ++ [t]) →
      ∃ n, s[t]? = some n ∧ n.next = none := by
  intro l
  induction l with
  | nil =>
    intro pv h
    obtain ⟨n, hn, _, hnext, _⟩ := h
    exact ⟨n, hn, hnext⟩
  | cons i l' ih =>
    intro pv h
    obtain ⟨n, _, _, _, hch⟩ := h
    exact ih (some i) hch

/-- Core of the pop transition: removing the last element `t` of a chain
ending `…, u, t` and clearing the `next` field of `u` leaves the shortened
chain intact.  `s2` abstracts the updated store. -/
theorem DLLS.chain_unsnoc_aux (s s2 : List (DLLS.NodeR α)) (u t : Nat)
    (G1 : ∀ i, i ≠ u → s2[i]? = s[i]?)
    (G2 : ∀ n : DLLS.NodeR α, s[u]? = some n →
      s2[u]? = some ⟨n.key, none, n.prev⟩) :
    ∀ (l : List Nat) (pv : Option Nat),
      DLLS.chain s pv (l ++ [u, t]) → u ∉ l →
      DLLS.chain s2 pv (l ++ [u]) := by
  intro l
  induction l with
  | nil =>
    intro pv h _
    obtain ⟨nu, hnu, hprev, _, _⟩ := h
    exact ⟨⟨nu.key, none, nu.prev⟩, G2 nu hnu, hprev, rfl, trivial⟩
  | cons i l' ih =>
    intro pv h hnotu
    obtain ⟨n, hn, hprev, hnext, hch⟩ := h
    have hiu : i ≠ u := fun he => hnotu (he ▸ List.mem_cons_self i l')
    refine ⟨n, ?_, hprev, ?_, ?_⟩
    · rw [G1 i hiu]
      exact hn
    · rw [hnext]
      exact DLLS.head?_append_pair l' u t
    · exact ih (some i) hch (fun hm => hnotu (List.mem_cons_of_mem i hm))

/-- `pop` preserves the list representation: the tail address is dropped. -/
theorem DLLS.pop_listRep (d : DLLS.State α) (ids : List Nat)
    (h : DLLS.listRep d ids) :
    DLLS.listRep (DLLS.pop d).1 ids.dropLast := by
  obtain ⟨hh, ht, hnd, hch⟩ := h
  rcases List.eq_nil_or_concat ids with hnil | ⟨L, b, hcat⟩
  · subst hnil
    have hcond : d.head = none ∧ d.tail = none := ⟨hh, ht⟩
    have hpop : DLLS.pop d = (d, none) := by
      simp only [DLLS.pop, if_pos hcond]
    rw [hpop]
    exact ⟨hh, ht, hnd, hch⟩
  · have hids : ids = L ++ [b] := by simpa using hcat
    subst hids
    have htail : d.tail = some b := by rw [ht, List.getLast?_concat]
    have hhead_ne : d.head ≠ none := by
      rw [hh]
      cases L <;> simp
    have hcond : ¬(d.head = none ∧ d.tail = none) := fun hc => hhead_ne hc.1
    rcases List.eq_nil_or_concat L with hLnil | ⟨M, u, hLcat⟩
    · subst hLnil
      obtain ⟨n, hn, hprev, hnext, _⟩ := hch
      have hpop : DLLS.pop d = (⟨d.store, none, none⟩, none) := by
        simp only [DLLS.pop, htail, hn, hprev]
        rw [if_neg (fun hc => hhead_ne hc.1)]
      rw [hpop]
      exact ⟨rfl, rfl, List.nodup_nil, trivial⟩
    · have hL : L = M ++ [u] := by simpa using hLcat
      subst hL
      have hids2 : (M ++ [u]) ++ [b] = M ++ [u, b] := by simp
      rw [hids2] at hch hnd hh
      obtain ⟨nb, hnb, hnbprev, _⟩ := DLLS.chain_last_pair d.store u b M none hch
      have humem : u ∈ M ++ [u, b] := by simp
      have hult : u < d.store.length := DLLS.chain_lt d.store _ none hch u humem
      obtain ⟨nu, hnu⟩ : ∃ nu, d.store[u]? = some nu :=
        ⟨d.store[u], List.getElem?_eq_getElem hult⟩
      have hset : DLLS.setNext d.store u none
          = d.store.set u (⟨nu.key, none, nu.prev⟩ : DLLS.NodeR α) := by
        simp only [DLLS.setNext, hnu]
      have G1 : ∀ i, i ≠ u → (DLLS.setNext d.store u none)[i]? = d.store[i]? := by
        intro i hiu
        rw [hset, List.getElem?_set_ne (fun he => hiu he.symm)]
      have G2 : ∀ n : DLLS.NodeR α, d.store[u]? = some n →
          (DLLS.setNext d.store u none)[u]? = some ⟨n.key, none, n.prev⟩ := by
        intro n hn
        rw [hn] at hnu
        have := Option.some.inj hnu
        subst this
        rw [hset, List.getElem?_set_self]
        exact hult
      have hpop : DLLS.pop d
          = (⟨DLLS.setNext d.store u none, d.head, some u⟩, some u) := by
        simp only [DLLS.pop, htail, hnb, hnbprev]
        rw [if_neg (fun hc => hhead_ne hc.1)]
      have hdrop : ((M ++ [u]) ++ [b]).dropLast = M ++ [u] :=
        List.dropLast_concat
      rw [hpop, hdrop]
      have hnd2 : (M ++ [u]).Nodup := by
        rw [show M ++ [u, b] = (M ++ [u]) ++ [b] by simp] at hnd
        rw [List.nodup_append] at hnd
        exact hnd.1
      have hunotM : u ∉ M := by
        rw [List.nodup_append] at hnd2
        intro hm
        exact hnd2.2.2 hm (List.mem_singleton.mpr rfl)
      refine ⟨?_, ?_, hnd2, ?_⟩
      · rw [hh, DLLS.head?_append_pair]
      · rw [List.getLast?_concat]
      · exact DLLS.chain_unsnoc_aux d.store _ u b G1 G2 M none hch hunotM

/-- The empty DLLS represents the empty list of nodes. -/
theorem DLLS.emptyState_listRep : DLLS.listRep (DLLS.emptyState : DLLS.State α) [] :=
  ⟨rfl, rfl, List.nodup_nil, trivial⟩

/-- Every state reachable from a represented state is represented by some
list of addresses. -/
theorem DLLS.foldl_listRep :
    ∀ (ops : List (DLLS.StackOp α)) (d : DLLS.State α) (ids : List Nat),
      DLLS.listRep d ids →
      ∃ ids', DLLS.listRep (List.foldl DLLS.stepOp d ops) ids' := by
  intro ops
  induction ops with
  | nil => intro d ids h; exact ⟨ids, h⟩
  | cons op ops' ih =>
    intro d ids h
    cases op with
    | pushOp k =>
      exact ih (DLLS.push d k).1 (ids ++ [d.store.length]) (DLLS.push_listRep d k ids h)
    | popOp =>
      exact ih (DLLS.pop d).1 ids.dropLast (DLLS.pop_listRep d ids h)

/-- In a chain, if a node's `next` points at address `b`, then the node at
`b` has its `prev` pointing back. -/
theorem DLLS.chain_next_imp_prev (s : List (DLLS.NodeR α)) (target_b : Nat)
    (nb : DLLS.NodeR α) :
    ∀ (ids : List Nat) (pv : Option Nat), DLLS.chain s pv ids →
      ∀ a na, a ∈ ids → s[a]? = some na → na.next = some target_b →
        s[target_b]? = some nb → nb.prev = some a := by
  intro ids
  induction ids with
  | nil => intro pv _ a na ha; cases ha
  | cons i rest ih =>
    intro pv h a na ha hna hnext hnb
    obtain ⟨n, hn, hprev, hnx, hch⟩ := h
    rcases List.mem_cons.mp ha with rfl | ha'
    · rw [hna] at hn
      have hne := Option.some.inj hn
      subst hne
      rw [hnext] at hnx
      cases rest with
      | nil => cases hnx
      | cons j rest' =>
        have hjb : j = target_b := (Option.some.inj hnx.symm)
        subst hjb
        obtain ⟨n2, hn2, hprev2, _, _⟩ := hch
        rw [hnb] at hn2
        have := Option.some.inj hn2
        subst this
        exact hprev2
    · exact ih (some i) hch a na ha' hna hnext hnb

/-- In a chain whose entry condition is respected, if a node's `prev`
points at address `a`, then the node at `a` has its `next` pointing back. -/
theorem DLLS.chain_prev_imp_next (s : List (DLLS.NodeR α)) (target_a : Nat)
    (na : DLLS.NodeR α) :
    ∀ (ids : List Nat) (pv : Option Nat), DLLS.chain s pv ids →
      (∀ nj, pv = some target_a → s[target_a]? = some nj → nj.next = ids.head?) →
      ∀ b nb, b ∈ ids → s[b]? = some nb → nb.prev = some target_a →
        s[target_a]? = some na → na.next = some b := by
  intro ids
  induction ids with
  | nil => intro pv _ _ b nb hb; cases hb
  | cons i rest ih =>
    intro pv h hside b nb hb hnb hprevb hna
    obtain ⟨n, hn, hprev, hnx, hch⟩ := h
    rcases List.mem_cons.mp hb with rfl | hb'
    · rw [hnb] at hn
      have := Option.some.inj hn
      subst this
      rw [hprevb] at hprev
      exact (hside na hprev.symm hna)
    · refine ih (some i) hch ?_ b nb hb' hnb hprevb hna
      intro nj hpv hnj
      have hia : i = target_a := Option.some.inj hpv
      subst hia
      rw [hnj] at hn
      have := Option.some.inj hn
      subst this
      exact hnx

/-- Claim C9: every LinkedStack state reachable from the empty list by any
sequence of push and pop operations satisfies the linkage invariant:
`head` is `None` iff `tail` is `None`; the head node's `prev` is `None`;
the tail node's `next` is `None`; and for any two nodes `a`, `b` of the
list, `a.next == b` iff `b.prev == a`. -/
theorem DLLS.reachable_linkage_invariant (ops : List (DLLS.StackOp α)) :
    ∃ ids : List Nat,
      DLLS.listRep (DLLS.runOps ops) ids ∧
      ((DLLS.runOps ops).head = none ↔ (DLLS.runOps ops).tail = none) ∧
      (∀ h n, (DLLS.runOps ops).head = some h →
        (DLLS.runOps ops).store[h]? = some n → n.prev = none) ∧
      (∀ t n, (DLLS.runOps ops).tail = some t →
        (DLLS.runOps ops).store[t]? = some n → n.next = none) ∧
      (∀ a b na nb, a ∈ ids → b ∈ ids →
        (DLLS.runOps ops).store[a]? = some na →
        (DLLS.runOps ops).store[b]? = some nb →
        (na.next = some b ↔ nb.prev = some a)) := by
  obtain ⟨ids, hrep⟩ := DLLS.foldl_listRep ops DLLS.emptyState [] DLLS.emptyState_listRep
  have hrep2 : DLLS.listRep (DLLS.runOps ops) ids := hrep
  obtain ⟨hh, ht, hnd, hch⟩ := hrep2
  refine ⟨ids, ⟨hh, ht, hnd, hch⟩, ?_, ?_, ?_, ?_⟩
  · cases ids with
    | nil =>
      constructor
      · intro _; exact ht
      · intro _; exact hh
    | cons x xs =>
      constructor
      · intro hcontra
        rw [hh] at hcontra
        cases hcontra
      · intro hcontra
        rw [ht, List.getLast?_eq_getLast_of_ne_nil (List.cons_ne_nil x xs)] at hcontra
        cases hcontra
  · intro hd n hhead hn
    cases ids with
    | nil => rw [hh] at hhead; cases hhead
    | cons x xs =>
      rw [hh] at hhead
      have hx : x = hd := Option.some.inj hhead
      subst hx
      obtain ⟨n', hn', hprev, _, _⟩ := hch
      rw [hn] at hn'
      have := Option.some.inj hn'
      subst this
      exact hprev
  · intro tl n htl hn
    rcases List.eq_nil_or_concat ids with hnil | ⟨L, b, hcat⟩
    · subst hnil; rw [ht] at htl; cases htl
    · have hids : ids = L ++ [b] := by simpa using hcat
      subst hids
      rw [ht, List.getLast?_concat] at htl
      have hb : b = tl := Option.some.inj htl
      subst hb
      obtain ⟨n', hn', hnext⟩ := DLLS.chain_last_next _ b L none hch
      rw [hn] at hn'
      have := Option.some.inj hn'
      subst this
      exact hnext
  · intro a b na nb ha hb hna hnb
    constructor
    · intro hnext
      exact DLLS.chain_next_imp_prev _ b nb ids none hch a na ha hna hnext hnb
    · intro hprev
      exact DLLS.chain_prev_imp_next _ a na ids none hch
        (fun nj hpv _ => by cases hpv) b nb hb hnb hprev hna

/-- Witness for C9: instantiation at the operation sequence
push 1, push 2, pop. -/
theorem DLLS.reachable_linkage_invariant_witness :
    ∃ ids : List Nat,
      DLLS.listRep (DLLS.runOps [DLLS.StackOp.pushOp (1 : Nat),
        DLLS.StackOp.pushOp 2, DLLS.StackOp.popOp]) ids ∧
      ((DLLS.runOps [DLLS.StackOp.pushOp (1 : Nat), DLLS.StackOp.pushOp 2,
          DLLS.StackOp.popOp]).head = none ↔
        (DLLS.runOps [DLLS.StackOp.pushOp (1 : Nat), DLLS.StackOp.pushOp 2,
          DLLS.StackOp.popOp]).tail = none) ∧
      (∀ h n, (DLLS.runOps [DLLS.StackOp.pushOp (1 : Nat),
          DLLS.StackOp.pushOp 2, DLLS.StackOp.popOp]).head = some h →
        (DLLS.runOps [DLLS.StackOp.pushOp (1 : Nat), DLLS.StackOp.pushOp 2,
          DLLS.StackOp.popOp]).store[h]? = some n → n.prev = none) ∧
      (∀ t n, (DLLS.runOps [DLLS.StackOp.pushOp (1 : Nat),
          DLLS.StackOp.pushOp 2, DLLS.StackOp.popOp]).tail = some t →
        (DLLS.runOps [DLLS.StackOp.pushOp (1 : Nat), DLLS.StackOp.pushOp 2,
          DLLS.StackOp.popOp]).store[t]? = some n → n.next = none) ∧
      (∀ a b na nb, a ∈ ids → b ∈ ids →
        (DLLS.runOps [DLLS.StackOp.pushOp (1 : Nat), DLLS.StackOp.pushOp 2,
          DLLS.StackOp.popOp]).store[a]? = some na →
        (DLLS.runOps [DLLS.StackOp.pushOp (1 : Nat), DLLS.StackOp.pushOp 2,
          DLLS.StackOp.popOp]).store[b]? = some nb →
        (na.next = some b ↔ nb.prev = some a)) :=
  DLLS.reachable_linkage_invariant
    [DLLS.StackOp.pushOp 1, DLLS.StackOp.pushOp 2, DLLS.StackOp.popOp]

/-- Claim C10: `pop`'s return value cannot distinguish a pop on an empty
stack from a pop that removed the last remaining node: on the empty list
`pop` returns `None` and mutates nothing, and on a one-node list it
returns `None` after emptying the list (`head` and `tail` cleared). -/
theorem DLLS.pop_return_indistinguishable (d : DLLS.State α) (ids : List Nat)
    (h : DLLS.listRep d ids) :
    (ids = [] → DLLS.pop d = (d, none)) ∧
    (ids.length = 1 → (DLLS.pop d).2 = none ∧ (DLLS.pop d).1.head = none ∧
      (DLLS.pop d).1.tail = none) := by
  obtain ⟨hh, ht, hnd, hch⟩ := h
  constructor
  · intro hnil
    subst hnil
    simp only [DLLS.pop, if_pos (⟨hh, ht⟩ : d.head = none ∧ d.tail = none)]
  · intro hlen
    obtain ⟨x, hx⟩ : ∃ x, ids = [x] := by
      cases ids with
      | nil => cases hlen
      | cons y ys =>
        cases ys with
        | nil => exact ⟨y, rfl⟩
        | cons z zs => simp at hlen
    subst hx
    obtain ⟨n, hn, hprev, hnext, _⟩ := hch
    have hheadx : d.head = some x := hh
    have htailx : d.tail = some x := ht
    have hpop : DLLS.pop d = (⟨d.store, none, none⟩, none) := by
      simp only [DLLS.pop, htailx, hn, hprev]
      rw [if_neg (fun hc => by rw [hheadx] at hc; cases hc.1)]
    rw [hpop]
    exact ⟨rfl, rfl, rfl⟩

/-- Witness for C10: popping the empty stack returns `None` and changes
nothing; popping a freshly pushed singleton returns `None` and empties the
list. -/
theorem DLLS.pop_return_indistinguishable_witness :
    DLLS.pop (DLLS.emptyState : DLLS.State Nat) = (DLLS.emptyState, none) ∧
    ((DLLS.pop (DLLS.push (DLLS.emptyState : DLLS.State Nat) 7).1).2 = none ∧
      (DLLS.pop (DLLS.push (DLLS.emptyState : DLLS.State Nat) 7).1).1.head = none ∧
      (DLLS.pop (DLLS.push (DLLS.emptyState : DLLS.State Nat) 7).1).1.tail = none) :=
  ⟨(DLLS.pop_return_indistinguishable DLLS.emptyState [] DLLS.emptyState_listRep).1 rfl,
   (DLLS.pop_return_indistinguishable (DLLS.push (DLLS.emptyState : DLLS.State Nat) 7).1
      [0] ⟨rfl, rfl, List.nodup_singleton 0,
        ⟨⟨7, none, none⟩, rfl, rfl, rfl, trivial⟩⟩).2 rfl⟩

/-- The iterative and recursive DLLS scans compute the same function for
every fuel and starting pointer. -/
theorem DLLS.search_go_eq (cmp : α → α → CMPValues) (d : DLLS.State α)
    (target : α) :
    ∀ (fuel : Nat) (cur : Option Nat),
      DLLS.iterative_search_go cmp d target fuel cur
        = DLLS.recursive_search_go cmp d target fuel cur := by
  intro fuel
  induction fuel with
  | zero => intro cur; cases cur <;> rfl
  | succ f ih =>
    intro cur
    cases cur with
    | none => rfl
    | some i =>
      simp only [DLLS.iterative_search_go, DLLS.recursive_search_go]
      cases hsi : d.store[i]? with
      | none => rfl
      | some n =>
        by_cases hm : cmp n.key target = CMPValues.EQUAL
        · simp [hm]
        · simp [hm, ih]

/-- The iterative scan along a chain, given enough fuel, returns the first
address on the chain whose node matches the target. -/
theorem DLLS.search_go_find (cmp : α → α → CMPValues) (d : DLLS.State α)
    (target : α) :
    ∀ (ids : List Nat) (pv : Option Nat) (fuel : Nat),
      DLLS.chain d.store pv ids → ids.length ≤ fuel →
      DLLS.iterative_search_go cmp d target fuel ids.head?
        = ids.find? (DLLS.keyMatches cmp d target) := by
  intro ids
  induction ids with
  | nil =>
    intro pv fuel _ _
    cases fuel with
    | zero => rfl
    | succ f => rfl
  | cons i rest ih =>
    intro pv fuel hch hlen
    obtain ⟨n, hn, hprev, hnext, hch'⟩ := hch
    cases fuel with
    | zero => simp at hlen
    | succ f =>
      show DLLS.iterative_search_go cmp d target (f + 1) (some i) = _
      simp only [DLLS.iterative_search_go]
      rw [hn]
      by_cases hm : cmp n.key target = CMPValues.EQUAL
      · have hkm : DLLS.keyMatches cmp d target i = true := by
          simp [DLLS.keyMatches, hn, hm]
        rw [List.find?_cons_of_pos _ hkm]
        simp [hm]
      · have hkm : DLLS.keyMatches cmp d target i = false := by
          simp [DLLS.keyMatches, hn, hm]
        rw [List.find?_cons_of_neg _ (by simp [hkm])]
        simp only [hm, if_false]
        rw [hnext]
        exact ih (some i) f hch' (by simp at hlen; omega)

/-- Claim C7: for every LinkedStack and target key, `search` with mode
`'i'` and `'r'` behave identically, and both return the first node from
`head` toward `tail` whose key the comparator reports EQUAL to the target
(`None` when no node matches). -/
theorem DLLS.search_modes_agree_first_match (cmp : α → α → CMPValues)
    (d : DLLS.State α) (target : α) :
    DLLS.iterative_search cmp d target = DLLS.recursive_search cmp d target ∧
    ∀ ids, DLLS.listRep d ids →
      DLLS.iterative_search cmp d target
        = ids.find? (DLLS.keyMatches cmp d target) := by
  constructor
  · exact DLLS.search_go_eq cmp d target d.store.length d.head
  · intro ids h
    obtain ⟨hh, ht, hnd, hch⟩ := h
    have hlen : ids.length ≤ d.store.length := by
      have hsub : ids.toFinset ⊆ Finset.range d.store.length := by
        intro x hx
        rw [Finset.mem_range]
        exact DLLS.chain_lt d.store ids none hch x (List.mem_toFinset.mp hx)
      have hcard := Finset.card_le_card hsub
      rw [List.toFinset_card_of_nodup hnd, Finset.card_range] at hcard
      exact hcard
    show DLLS.iterative_search_go cmp d target d.store.length d.head = _
    rw [hh]
    exact DLLS.search_go_find cmp d target ids none d.store.length hch hlen

/-- Witness for C7: on the stack [1, 2, 3], searching for 2 returns the
first matching address, node 1 (the node holding key 2). -/
theorem DLLS.search_modes_agree_first_match_witness :
    DLLS.iterative_search natCmp DLLS.stack123 2
      = [0, 1, 2].find? (DLLS.keyMatches natCmp DLLS.stack123 2) :=
  (DLLS.search_modes_agree_first_match natCmp DLLS.stack123 2).2 [0, 1, 2]
    ⟨rfl, rfl, by decide,
      ⟨⟨1, some 1, none⟩, rfl, rfl, rfl,
        ⟨2, some 2, some 0⟩, rfl, rfl, rfl,
        ⟨3, none, some 1⟩, rfl, rfl, rfl, trivial⟩⟩

/-- Claim C8: calling `insert_node` or `search` with a mode string that is
neither `'i'` nor `'r'` fails with a `ValueError`, distinct from the
`TypeError` raised when the mode is not a string at all, and on both
failures the structure (BST tree, DLLS node store and links) is exactly as
it was before the call. -/
theorem BST.invalid_mode_errors_leave_state_unchanged
    (cmp : α → α → CMPValues) (t : BST.Tree α) (k : α)
    (cmp2 : β → β → CMPValues) (d : DLLS.State β) (target : β)
    (s : String) (h1 : s ≠ "i") (h2 : s ≠ "r") :
    BST.insert_node cmp t k (BST.ModeArg.str s)
      = (Except.error (BST.PyError.valueError "`mode` must be of VALUE 'i' or 'r'"), t) ∧
    BST.insert_node cmp t k BST.ModeArg.nonStr
      = (Except.error (BST.PyError.typeError "`mode` must of TYPE `str`"), t) ∧
    DLLS.search cmp2 d target (BST.ModeArg.str s)
      = (Except.error (BST.PyError.valueError "`mode` must be of VALUE 'i' or 'r'"), d) ∧
    DLLS.search cmp2 d target BST.ModeArg.nonStr
      = (Except.error (BST.PyError.typeError "`mode` must of TYPE `str`"), d) ∧
    (∀ m1 m2 : String, BST.PyError.valueError m1 ≠ BST.PyError.typeError m2) := by
  refine ⟨?_, rfl, ?_, rfl, ?_⟩
  · simp [BST.insert_node, h1, h2]
  · simp [DLLS.search, h1, h2]
  · intro m1 m2 hc
    cases hc

/-- Witness for C8: the mode string "x" triggers the `ValueError` path on
both structures, with the states unchanged. -/
theorem BST.invalid_mode_errors_leave_state_unchanged_witness :
    BST.insert_node natCmp BST.Tree.leaf 0 (BST.ModeArg.str "x")
      = (Except.error (BST.PyError.valueError "`mode` must be of VALUE 'i' or 'r'"),
          BST.Tree.leaf) ∧
    BST.insert_node natCmp BST.Tree.leaf 0 BST.ModeArg.nonStr
      = (Except.error (BST.PyError.typeError "`mode` must of TYPE `str`"),
          BST.Tree.leaf) ∧
    DLLS.search natCmp DLLS.emptyState 0 (BST.ModeArg.str "x")
      = (Except.error (BST.PyError.valueError "`mode` must be of VALUE 'i' or 'r'"),
          DLLS.emptyState) ∧
    DLLS.search natCmp DLLS.emptyState 0 BST.ModeArg.nonStr
      = (Except.error (BST.PyError.typeError "`mode` must of TYPE `str`"),
          DLLS.emptyState) ∧
    (∀ m1 m2 : String, BST.PyError.valueError m1 ≠ BST.PyError.typeError m2) :=
  BST.invalid_mode_errors_leave_state_unchanged natCmp BST.Tree.leaf 0 natCmp
    DLLS.emptyState 0 "x" (by decide) (by decide)
